import Mathlib

/-!
Shallow embedding of the `ReversedWords` word-reversing stream adapter
(`src/lib.rs`) and proofs of its specified properties.

The adapter wraps a byte buffer (here `List Nat`) together with a cursor
position and a configured word size.  `write` maps each incoming byte to a
physical target offset inside its (reversed) word, sorts the targets and
applies them with a forward-only cursor; `read` consumes one 4-byte word at
a time, emitting its bytes in reverse order.  Cursor semantics follow
`std::io::Cursor` over a mutable slice: single-byte writes at or past the
end of the slice write nothing and report 0 bytes written, and relative
seeks fail exactly when the resulting position would be negative.
-/

/-- State of the adapter: the backing buffer, the cursor position and the
configured word size.  (`len` of the Rust struct is always the buffer
length, so it is represented by `data.length`.) -/
structure ReversedWords where
  data : List Nat
  pos : Nat
  word_size : Nat
deriving DecidableEq, Repr

namespace ReversedWords

/-- `ReversedWords::new`: word size defaults to 4, cursor starts at 0. -/
def new (ram : List Nat) : ReversedWords :=
  { data := ram, pos := 0, word_size := 4 }

/-- `ReversedWords::new_with_word_size`. -/
def new_with_word_size (ram : List Nat) (w : Nat) : ReversedWords :=
  { data := ram, pos := 0, word_size := w }

/-- `Seek` with `SeekFrom::Start`: pure position delegation to the cursor
(the cursor may be placed past the end of the buffer). -/
def seekStart (s : ReversedWords) (a : Nat) : ReversedWords :=
  { s with pos := a }

end ReversedWords

/-- `Cursor::seek(SeekFrom::Current(delta))`: fails iff the target position
would be negative. -/
def seekCurrent (pos : Nat) (delta : Int) : Option Nat :=
  if (pos : Int) + delta < 0 then none else some ((pos : Int) + delta).toNat

/-- The per-byte physical target map of the write path (lines 53-57 of the
source): byte `index` of the call lands at
`word_start_index + position_within_flipped_word`. -/
def targetIdx (w m index : Nat) : Nat :=
  let word_num := (index + m) / w
  let word_start_index := word_num * w
  let position_within_unflipped_word := (index + m) % w
  let position_within_flipped_word := w - 1 - position_within_unflipped_word
  word_start_index + position_within_flipped_word

/-- `buf.iter().enumerate()` starting from index `k`. -/
def enumerate : Nat → List Nat → List (Nat × Nat)
  | _, [] => []
  | k, b :: rest => (k, b) :: enumerate (k + 1) rest

/-- The `(target_offset, byte)` pairs collected by one `write` call. -/
def writePairs (w m : Nat) (buf : List Nat) : List (Nat × Nat) :=
  (enumerate 0 buf).map (fun ib => (targetIdx w m ib.1, ib.2))

/-- The pairs after `writes.sort_by` on the target offset.  Rust's sort is
stable; the target offsets of one call are pairwise distinct (see
`targetIdx_inj`), so every comparison sort produces this same list. -/
def sortedWrites (w m : Nat) (buf : List Nat) : List (Nat × Nat) :=
  List.insertionSort (fun a b => a.1 ≤ b.1) (writePairs w m buf)

/-- The write application loop (lines 63-72): for each pair, seek forward to
`write_index + start_position` when the cursor is behind it, then perform a
one-byte cursor write.  `Cursor<&mut [u8]>` writes via `slice_write`, which
clamps the stored position to the slice length and advances it by the
number of bytes written: a write landing at or past the end writes nothing
and leaves the cursor at the slice length.  Returns the final buffer,
cursor position and byte count. -/
def writeLoop (start : Nat) : List (Nat × Nat) → List Nat → Nat → Nat →
    List Nat × Nat × Nat
  | [], d, pos, acc => (d, pos, acc)
  | (t, b) :: rest, d, pos, acc =>
    let target := t + start
    let pos1 := if pos < target then target else pos
    let posC := min pos1 d.length
    if posC < d.length then writeLoop start rest (d.set posC b) (posC + 1) (acc + 1)
    else writeLoop start rest d posC acc

/-- `Write::write` (lines 42-74): compute the misalignment, rewind to the
word-aligned origin, collect and sort the target/byte pairs and apply them. -/
def ReversedWords.write (s : ReversedWords) (buf : List Nat) :
    Option (Nat × ReversedWords) :=
  let m := s.pos % s.word_size
  match (if 0 < m then seekCurrent s.pos (-(m : Int)) else some s.pos) with
  | none => none
  | some start_position =>
    let r := writeLoop start_position (sortedWrites s.word_size m buf)
      s.data start_position 0
    some (r.2.2, { s with data := r.1, pos := r.2.1 })

/-- The inner emit loop of `read` (lines 100-111): emit the bytes of one
reversed word starting at index `misalignment`, stopping when the output
buffer is full; the running misalignment is decremented once per emitted
byte (saturating at 0, as `misalignment -= 1` is guarded by
`misalignment > 0`).  `bs` is the tail `word[i..]` still to emit; returns
the new misalignment, output index and output bytes. -/
def emitBytes : List Nat → Nat → Nat → Nat → List Nat → Nat × Nat × List Nat
  | [], m, _, wi, out => (m, wi, out)
  | b :: rest, m, cap, wi, out =>
    if cap ≤ wi then (m, wi, out)
    else emitBytes rest (m - 1) cap (wi + 1) (out ++ [b])

/-- The outer loop of `read` (lines 90-119).  Each iteration stops at the
end of the stream or when the output is full, otherwise reads one u32
big-endian (4 bytes; an I/O error — `none` — if fewer than 4 remain) and
emits its bytes in reverse order from index `m` on.  `fuel` bounds the
number of iterations; the caller passes `d.length`, which is never
exhausted since each iteration consumes 4 bytes of the buffer. -/
def readLoopF : Nat → List Nat → Nat → Nat → Nat → Nat → List Nat →
    Option (Nat × List Nat × Nat)
  | fuel, d, cap, pos, m, wi, out =>
    if d.length ≤ pos ∨ cap ≤ wi then some (wi, out, pos)
    else if d.length < pos + 4 then none
    else
      match fuel with
      | 0 => none
      | fuel + 1 =>
        let word := ((d.drop pos).take 4).reverse
        let r := emitBytes (word.drop m) m cap wi out
        readLoopF fuel d cap (pos + 4) r.1 r.2.1 r.2.2

/-- `Read::read` (lines 82-120): compute the misalignment, rewind to the
word-aligned origin and run the word loop.  Returns the number of bytes
read, the bytes themselves and the updated stream. -/
def ReversedWords.read (s : ReversedWords) (cap : Nat) :
    Option (Nat × List Nat × ReversedWords) :=
  let m := s.pos % s.word_size
  match (if 0 < m then seekCurrent s.pos (-(m : Int)) else some s.pos) with
  | none => none
  | some pos0 =>
    match readLoopF s.data.length s.data cap pos0 m 0 [] with
    | none => none
    | some (c, out, p) => some (c, out, { s with pos := p })

/-- The physical slot of logical offset `q` under `w`-byte word reversal:
`q` stays inside its word, at the mirrored position. -/
def flipIdx (w q : Nat) : Nat :=
  q / w * w + (w - 1 - q % w)

/-- Reversal of each consecutive 4-byte word of a buffer (the net effect of
the adapter on a buffer whose length is a multiple of 4). -/
def flipWords4 : List Nat → List Nat
  | a :: b :: c :: e :: rest => e :: c :: b :: a :: flipWords4 rest
  | other => other

/-- Modelled from the spec: the plain, non-reversing sequential byte store
a caller logically intends (claim C2's reference semantics).  Stores the
bytes at consecutive offsets from `p`, ignoring stores past the end. -/
def plainStore : List Nat → Nat → List Nat → List Nat
  | d, _, [] => d
  | d, p, b :: rest => plainStore (d.set p b) (p + 1) rest

/-- A sequence of `(seek to offset, write block)` operations on the
adapter. -/
def runOps : ReversedWords → List (Nat × List Nat) → Option ReversedWords
  | s, [] => some s
  | s, (a, bs) :: rest =>
    match ReversedWords.write (ReversedWords.seekStart s a) bs with
    | some (_, s1) => runOps s1 rest
    | none => none

/-- Modelled from the spec: the same operation sequence interpreted by the
plain byte store. -/
def plainRun : List Nat → List (Nat × List Nat) → List Nat
  | d, [] => d
  | d, (a, bs) :: rest => plainRun (plainStore d a bs) rest

/-! ### Arithmetic of the word-reversal index map -/

theorem flipIdx_div_mod (w q : Nat) (hw : 0 < w) :
    flipIdx w q / w = q / w ∧ flipIdx w q % w = w - 1 - q % w := by
  have hr : w - 1 - q % w < w := by
    have := Nat.mod_lt q hw
    omega
  unfold flipIdx
  constructor
  · rw [Nat.add_comm, Nat.add_mul_div_right _ _ hw, Nat.div_eq_of_lt hr,
      Nat.zero_add]
  · rw [Nat.add_comm, Nat.add_mul_mod_self_right, Nat.mod_eq_of_lt hr]

theorem flipIdx_lt_self_word (w q : Nat) (hw : 0 < w) :
    flipIdx w q < q / w * w + w := by
  have := Nat.mod_lt q hw
  unfold flipIdx
  omega

theorem flipIdx_invol (w q : Nat) (hw : 0 < w) :
    flipIdx w (flipIdx w q) = q := by
  obtain ⟨hd, hm⟩ := flipIdx_div_mod w q hw
  have hq : q / w * w + q % w = q := Nat.div_add_mod' q w
  have hqm : q % w < w := Nat.mod_lt q hw
  have hstep : flipIdx w (flipIdx w q) =
      flipIdx w q / w * w + (w - 1 - flipIdx w q % w) := rfl
  rw [hstep, hd, hm]
  omega

theorem flipIdx_inj {w q1 q2 : Nat} (hw : 0 < w)
    (h : flipIdx w q1 = flipIdx w q2) : q1 = q2 := by
  have := flipIdx_invol w q1 hw
  have := flipIdx_invol w q2 hw
  rw [← flipIdx_invol w q1 hw, ← flipIdx_invol w q2 hw, h]

theorem flipIdx_lt_iff {w L q : Nat} (hw : 0 < w) (hL : L % w = 0) :
    (flipIdx w q < L ↔ q < L) := by
  have hdvd : w ∣ L := Nat.dvd_of_mod_eq_zero hL
  have hLw : L / w * w = L := Nat.div_mul_cancel hdvd
  obtain ⟨hd, _⟩ := flipIdx_div_mod w q hw
  have key : ∀ x : Nat, x < L ↔ x / w < L / w := by
    intro x
    constructor
    · intro h
      exact Nat.div_lt_div_of_lt_of_dvd hdvd h
    · intro h
      have := (Nat.div_lt_iff_lt_mul hw).mp h
      omega
  rw [key (flipIdx w q), key q, hd]

theorem flipIdx_add_multiple {w s : Nat} (x : Nat) (hw : 0 < w) (hs : w ∣ s) :
    flipIdx w (s + x) = s + flipIdx w x := by
  obtain ⟨k, rfl⟩ := hs
  unfold flipIdx
  rw [Nat.mul_add_div hw, Nat.mul_add_mod, Nat.add_mul, Nat.mul_comm k w]
  omega

theorem targetIdx_eq_flipIdx (w m i : Nat) : targetIdx w m i = flipIdx w (i + m) :=
  rfl

/-- Claim C6's injectivity core: within one write call the target offsets
are pairwise distinct. -/
theorem targetIdx_inj {w m i j : Nat} (hw : 0 < w)
    (h : targetIdx w m i = targetIdx w m j) : i = j := by
  rw [targetIdx_eq_flipIdx, targetIdx_eq_flipIdx] at h
  have := flipIdx_inj hw h
  omega

/-! ### Enumerate lemmas -/

theorem enumerate_mem {p : Nat × Nat} :
    ∀ {k : Nat} {bs : List Nat}, p ∈ enumerate k bs ↔
      ∃ j, bs[j]? = some p.2 ∧ p.1 = k + j := by
  intro k bs
  induction bs generalizing k with
  | nil => simp [enumerate]
  | cons b rest ih =>
    simp only [enumerate, List.mem_cons, ih]
    constructor
    · rintro (rfl | ⟨j, hj, hp⟩)
      · exact ⟨0, by simp⟩
      · exact ⟨j + 1, by simpa using hj, by omega⟩
    · rintro ⟨j, hj, hp⟩
      cases j with
      | zero =>
        left
        obtain ⟨p1, p2⟩ := p
        simp only [List.getElem?_cons_zero, Option.some.injEq] at hj
        simp only at hp
        simp [hj, hp]
      | succ j =>
        right
        exact ⟨j, by simpa using hj, by omega⟩

theorem enumerate_pairwise (k : Nat) (bs : List Nat) :
    List.Pairwise (fun a b : Nat × Nat => a.1 < b.1) (enumerate k bs) := by
  induction bs generalizing k with
  | nil => simp [enumerate]
  | cons b rest ih =>
    refine List.Pairwise.cons ?_ (ih (k + 1))
    intro p hp
    obtain ⟨j, _, hj⟩ := enumerate_mem.mp hp
    omega

theorem enumerate_length (k : Nat) (bs : List Nat) :
    (enumerate k bs).length = bs.length := by
  induction bs generalizing k with
  | nil => rfl
  | cons b rest ih => simp [enumerate, ih]

/-! ### Properties of the sorted write list -/

instance : IsTotal (Nat × Nat) (fun a b : Nat × Nat => a.1 ≤ b.1) :=
  ⟨fun a b => Nat.le_total a.1 b.1⟩

instance : IsTrans (Nat × Nat) (fun a b : Nat × Nat => a.1 ≤ b.1) :=
  ⟨fun _ _ _ h1 h2 => Nat.le_trans h1 h2⟩

theorem sortedWrites_perm (w m : Nat) (buf : List Nat) :
    List.Perm (sortedWrites w m buf) (writePairs w m buf) :=
  List.perm_insertionSort _ _

theorem writePairs_pairwise_ne (w m : Nat) (buf : List Nat) (hw : 0 < w) :
    List.Pairwise (fun a b : Nat × Nat => a.1 ≠ b.1) (writePairs w m buf) := by
  unfold writePairs
  rw [List.pairwise_map]
  refine (enumerate_pairwise 0 buf).imp ?_
  intro a b hab heq
  exact absurd (targetIdx_inj hw heq) (by omega)

theorem sortedWrites_pairwise_lt (w m : Nat) (buf : List Nat) (hw : 0 < w) :
    List.Pairwise (fun a b : Nat × Nat => a.1 < b.1) (sortedWrites w m buf) := by
  have hs : List.Pairwise (fun a b : Nat × Nat => a.1 ≤ b.1) (sortedWrites w m buf) :=
    List.sorted_insertionSort _ _
  have hne : List.Pairwise (fun a b : Nat × Nat => a.1 ≠ b.1) (sortedWrites w m buf) :=
    (List.Perm.pairwise_iff (fun h => Ne.symm h) (sortedWrites_perm w m buf)).mpr
      (writePairs_pairwise_ne w m buf hw)
  exact (hs.and hne).imp fun h => Nat.lt_of_le_of_ne h.1 h.2

theorem mem_sortedWrites {w m : Nat} {buf : List Nat} {p : Nat × Nat} :
    p ∈ sortedWrites w m buf ↔
      ∃ j, buf[j]? = some p.2 ∧ p.1 = targetIdx w m j := by
  rw [(sortedWrites_perm w m buf).mem_iff]
  unfold writePairs
  rw [List.mem_map]
  constructor
  · rintro ⟨a, ha, rfl⟩
    obtain ⟨j, hj, hj1⟩ := enumerate_mem.mp ha
    exact ⟨j, hj, by simp [hj1]⟩
  · rintro ⟨j, hj, hp⟩
    refine ⟨(j, p.2), enumerate_mem.mpr ⟨j, hj, by simp⟩, ?_⟩
    rw [← hp]

theorem sortedWrites_length (w m : Nat) (buf : List Nat) :
    (sortedWrites w m buf).length = buf.length := by
  rw [(sortedWrites_perm w m buf).length_eq]
  unfold writePairs
  rw [List.length_map, enumerate_length]

/-! ### Characterization of the write loop -/

/-- On a list of pairs with strictly increasing target offsets, starting at
or before the first target, the write loop stores each byte at exactly
`target + start` (dropping out-of-range stores), counts the in-range
stores, and parks the cursor one past the last target when that store was
in range, and at the clamped position — the buffer length — when it was
not. -/
theorem writeLoop_spec (start : Nat) :
    ∀ (ws : List (Nat × Nat)) (d : List Nat) (pos acc : Nat),
      List.Pairwise (fun a b : Nat × Nat => a.1 < b.1) ws →
      (∀ p ∈ ws, pos ≤ p.1 + start) →
      writeLoop start ws d pos acc =
        (ws.foldl (fun d tb => d.set (tb.1 + start) tb.2) d,
         (match ws.getLast? with
          | none => pos
          | some tb => if tb.1 + start < d.length then tb.1 + start + 1
                       else d.length),
         acc + ws.countP (fun tb => decide (tb.1 + start < d.length))) := by
  intro ws
  induction ws with
  | nil => intro d pos acc _ _; simp [writeLoop]
  | cons hd tl ih =>
    intro d pos acc hpw hinv
    obtain ⟨t, b⟩ := hd
    have hple : pos ≤ t + start := hinv (t, b) (List.mem_cons_self _ _)
    have hpos1 : (if pos < t + start then t + start else pos) = t + start := by
      split <;> omega
    have hhd := List.pairwise_cons.mp hpw
    rw [writeLoop]
    simp only [hpos1]
    by_cases hin : t + start < d.length
    · rw [min_eq_left (Nat.le_of_lt hin), if_pos hin]
      rw [ih (d.set (t + start) b) (t + start + 1) (acc + 1) hhd.2
        (fun p hp => by have := hhd.1 p hp; omega)]
      refine Prod.ext rfl (Prod.ext ?_ ?_)
      · cases tl with
        | nil => simp [hin]
        | cons x xs =>
          rw [List.getLast?_cons_cons]
          simp only [List.length_set]
          rfl
      · simp only [List.countP_cons, List.length_set, decide_eq_true_eq]
        rw [if_pos hin]
        omega
    · rw [min_eq_right (by omega), if_neg (Nat.lt_irrefl d.length)]
      rw [ih d d.length acc hhd.2
        (fun p hp => by have := hhd.1 p hp; omega)]
      have hset : d.set (t + start) b = d :=
        List.set_eq_of_length_le (by omega)
      refine Prod.ext (by simp [hset]) (Prod.ext ?_ ?_)
      · cases tl with
        | nil => simp [hin]
        | cons x xs =>
          rw [List.getLast?_cons_cons]
          rfl
      · simp only [List.countP_cons, decide_eq_true_eq]
        rw [if_neg hin]
        omega

/-! ### Pointwise view of the applied stores -/

theorem foldl_set_miss (start : Nat) :
    ∀ (ws : List (Nat × Nat)) (d : List Nat) (q : Nat),
      (∀ p ∈ ws, p.1 + start ≠ q) →
      (ws.foldl (fun d tb => d.set (tb.1 + start) tb.2) d)[q]? = d[q]? := by
  intro ws
  induction ws with
  | nil => intro d q _; rfl
  | cons hd tl ih =>
    intro d q hmiss
    rw [List.foldl_cons, ih _ q (fun p hp => hmiss p (List.mem_cons_of_mem _ hp))]
    exact List.getElem?_set_ne (hmiss hd (List.mem_cons_self _ _))

theorem foldl_set_hit (start : Nat) :
    ∀ (ws : List (Nat × Nat)) (d : List Nat) (t b : Nat),
      List.Pairwise (fun a b : Nat × Nat => a.1 ≠ b.1) ws →
      (t, b) ∈ ws →
      (ws.foldl (fun d tb => d.set (tb.1 + start) tb.2) d)[t + start]? =
        if t + start < d.length then some b else none := by
  intro ws
  induction ws with
  | nil => intro d t b _ hmem; cases hmem
  | cons hd tl ih =>
    intro d t b hpw hmem
    have hhd := List.pairwise_cons.mp hpw
    rw [List.foldl_cons]
    rcases List.mem_cons.mp hmem with heq | htl
    · have hne : ∀ p ∈ tl, p.1 + start ≠ t + start := by
        intro p hp
        have := hhd.1 p hp
        rw [← heq] at this
        omega
      rw [foldl_set_miss start tl _ _ hne, ← heq]
      by_cases hlt : t + start < d.length
      · rw [if_pos hlt]
        exact List.getElem?_set_self (by simpa using hlt)
      · rw [if_neg hlt, List.set_eq_of_length_le (by omega)]
        exact List.getElem?_eq_none (by omega)
    · rw [ih _ t b hhd.2 htl]
      simp [List.length_set]

theorem foldl_set_length (start : Nat) :
    ∀ (ws : List (Nat × Nat)) (d : List Nat),
      (ws.foldl (fun d tb => d.set (tb.1 + start) tb.2) d).length = d.length := by
  intro ws
  induction ws with
  | nil => intro d; rfl
  | cons hd tl ih => intro d; rw [List.foldl_cons, ih, List.length_set]

theorem countP_lt_of_mem {p : Nat × Nat → Bool} :
    ∀ {l : List (Nat × Nat)} {a : Nat × Nat}, a ∈ l → p a = false →
      l.countP p < l.length := by
  intro l
  induction l with
  | nil => intro a ha _; cases ha
  | cons hd tl ih =>
    intro a ha hp
    rw [List.countP_cons, List.length_cons]
    rcases List.mem_cons.mp ha with rfl | htl
    · have := List.countP_le_length (l := tl) (p := p)
      simp only [hp, Bool.false_eq_true, if_false]
      omega
    · have := ih htl hp
      split <;> omega

/-! ### The master equation for write -/

/-- `write` never fails and is exactly: rewind by the misalignment, then run
the write loop on the sorted target/byte pairs. -/
theorem write_spec (s : ReversedWords) (buf : List Nat) (hw : 0 < s.word_size) :
    ReversedWords.write s buf =
      some ((sortedWrites s.word_size (s.pos % s.word_size) buf).countP
          (fun tb => decide (tb.1 + (s.pos - s.pos % s.word_size) < s.data.length)),
        { data := (sortedWrites s.word_size (s.pos % s.word_size) buf).foldl
            (fun d tb => d.set (tb.1 + (s.pos - s.pos % s.word_size)) tb.2) s.data,
          pos := (match (sortedWrites s.word_size (s.pos % s.word_size) buf).getLast? with
            | none => s.pos - s.pos % s.word_size
            | some tb => if tb.1 + (s.pos - s.pos % s.word_size) < s.data.length
                then tb.1 + (s.pos - s.pos % s.word_size) + 1
                else s.data.length),
          word_size := s.word_size }) := by
  have hm : s.pos % s.word_size ≤ s.pos := Nat.mod_le _ _
  unfold ReversedWords.write
  dsimp only
  have hstart : (if 0 < s.pos % s.word_size then
      seekCurrent s.pos (-((s.pos % s.word_size : Nat) : Int)) else some s.pos) =
      some (s.pos - s.pos % s.word_size) := by
    split
    · unfold seekCurrent
      rw [if_neg (by omega)]
      congr 1
      omega
    · congr 1
      omega
  rw [hstart]
  dsimp only
  rw [writeLoop_spec (s.pos - s.pos % s.word_size)
    (sortedWrites s.word_size (s.pos % s.word_size) buf) s.data
    (s.pos - s.pos % s.word_size) 0
    (sortedWrites_pairwise_lt _ _ buf hw) (fun p _ => Nat.le_add_left _ _)]
  rw [Nat.zero_add]

theorem sub_mod_dvd (p w : Nat) : w ∣ (p - p % w) :=
  ⟨p / w, by have := Nat.div_add_mod p w; omega⟩

/-- The absolute physical slot of input byte `i` of a write call starting at
cursor position `p`: the sorted-loop target plus the rewound start equals
the word-reversal image of the logical offset `p + i`. -/
theorem target_add_start (p i w : Nat) (hw : 0 < w) :
    targetIdx w (p % w) i + (p - p % w) = flipIdx w (p + i) := by
  rw [targetIdx_eq_flipIdx, Nat.add_comm,
    ← flipIdx_add_multiple (i + p % w) hw (sub_mod_dvd p w)]
  congr 1
  have := Nat.mod_le p w
  omega

theorem write_dest {s : ReversedWords} {buf : List Nat} {c : Nat}
    {s' : ReversedWords} (hw : 0 < s.word_size)
    (h : ReversedWords.write s buf = some (c, s')) :
    c = (sortedWrites s.word_size (s.pos % s.word_size) buf).countP
        (fun tb => decide (tb.1 + (s.pos - s.pos % s.word_size) < s.data.length)) ∧
    s'.data = (sortedWrites s.word_size (s.pos % s.word_size) buf).foldl
        (fun d tb => d.set (tb.1 + (s.pos - s.pos % s.word_size)) tb.2) s.data ∧
    s'.pos = (match (sortedWrites s.word_size (s.pos % s.word_size) buf).getLast? with
      | none => s.pos - s.pos % s.word_size
      | some tb => if tb.1 + (s.pos - s.pos % s.word_size) < s.data.length
          then tb.1 + (s.pos - s.pos % s.word_size) + 1
          else s.data.length) ∧
    s'.word_size = s.word_size := by
  rw [write_spec s buf hw] at h
  simp only [Option.some.injEq, Prod.mk.injEq] at h
  obtain ⟨hc, hs⟩ := h
  exact ⟨hc.symm, by rw [← hs], by rw [← hs], by rw [← hs]⟩

theorem write_data_length {s : ReversedWords} {buf : List Nat} {c : Nat}
    {s' : ReversedWords} (hw : 0 < s.word_size)
    (h : ReversedWords.write s buf = some (c, s')) :
    s'.data.length = s.data.length := by
  rw [(write_dest hw h).2.1, foldl_set_length]

/-- Pointwise effect of a write, hit case: input byte `i` lands at physical
slot `flipIdx w (pos + i)` (when in range; out-of-range bytes are dropped). -/
theorem write_hit {s : ReversedWords} {buf : List Nat} {c : Nat}
    {s' : ReversedWords} (hw : 0 < s.word_size)
    (h : ReversedWords.write s buf = some (c, s')) {i : Nat} (hi : i < buf.length) :
    s'.data[flipIdx s.word_size (s.pos + i)]? =
      if flipIdx s.word_size (s.pos + i) < s.data.length then buf[i]? else none := by
  rw [(write_dest hw h).2.1, ← target_add_start s.pos i s.word_size hw,
    foldl_set_hit _ _ _ (targetIdx s.word_size (s.pos % s.word_size) i) buf[i]
      ((sortedWrites_pairwise_lt _ _ buf hw).imp fun hlt => Nat.ne_of_lt hlt)
      (mem_sortedWrites.mpr ⟨i, List.getElem?_eq_getElem hi, rfl⟩),
    List.getElem?_eq_getElem hi]

/-- Pointwise effect of a write, miss case: slots that are not the
word-reversal image of a written logical offset are untouched. -/
theorem write_miss {s : ReversedWords} {buf : List Nat} {c : Nat}
    {s' : ReversedWords} (hw : 0 < s.word_size)
    (h : ReversedWords.write s buf = some (c, s')) {q : Nat}
    (hq : ∀ i, i < buf.length → flipIdx s.word_size (s.pos + i) ≠ q) :
    s'.data[q]? = s.data[q]? := by
  rw [(write_dest hw h).2.1]
  apply foldl_set_miss
  intro p hp
  obtain ⟨j, hj, hp1⟩ := mem_sortedWrites.mp hp
  have hjlt : j < buf.length := (List.getElem?_eq_some.mp hj).1
  rw [hp1, target_add_start s.pos j s.word_size hw]
  exact hq j hjlt

/-- When the whole input fits between the cursor and the end of the buffer,
the reported count is the full input length. -/
theorem write_count_full {s : ReversedWords} {buf : List Nat} {c : Nat}
    {s' : ReversedWords} (hw : 0 < s.word_size)
    (h : ReversedWords.write s buf = some (c, s'))
    (hL : s.data.length % s.word_size = 0)
    (hall : s.pos + buf.length ≤ s.data.length) : c = buf.length := by
  rw [(write_dest hw h).1, List.countP_eq_length.mpr ?_, sortedWrites_length]
  intro p hp
  obtain ⟨j, hj, hp1⟩ := mem_sortedWrites.mp hp
  have hjlt : j < buf.length := (List.getElem?_eq_some.mp hj).1
  rw [hp1, target_add_start s.pos j s.word_size hw, decide_eq_true_eq,
    flipIdx_lt_iff hw hL]
  omega

/-- When the input does not fit in the remaining buffer, the reported count
falls short of the input length. -/
theorem write_count_short {s : ReversedWords} {buf : List Nat} {c : Nat}
    {s' : ReversedWords} (hw : 0 < s.word_size)
    (h : ReversedWords.write s buf = some (c, s'))
    (hL : s.data.length % s.word_size = 0)
    (hover : s.data.length - s.pos < buf.length) : c < buf.length := by
  have hn : 1 ≤ buf.length := by omega
  rw [(write_dest hw h).1, ← sortedWrites_length s.word_size (s.pos % s.word_size) buf]
  refine countP_lt_of_mem (a := (targetIdx s.word_size (s.pos % s.word_size)
    (buf.length - 1), buf[buf.length - 1])) ?_ ?_
  · exact mem_sortedWrites.mpr ⟨buf.length - 1,
      List.getElem?_eq_getElem (by omega), rfl⟩
  · rw [decide_eq_false_iff_not, target_add_start s.pos (buf.length - 1) s.word_size hw,
      flipIdx_lt_iff hw hL]
    omega

/-! ### Characterization of the read loop -/

theorem list_len4 (l : List Nat) (h : l.length = 4) :
    ∃ a b c e, l = [a, b, c, e] := by
  match l, h with
  | [a, b, c, e], _ => exact ⟨a, b, c, e, rfl⟩
  | [], h => simp at h
  | [a], h => simp at h
  | [a, b], h => simp at h
  | [a, b, c], h => simp at h
  | a :: b :: c :: e :: f :: rest, h =>
    simp only [List.length_cons] at h
    omega

theorem readLoopF_stop (fuel : Nat) (d : List Nat) (cap pos m wi : Nat)
    (out : List Nat) (h : d.length ≤ pos ∨ cap ≤ wi) :
    readLoopF fuel d cap pos m wi out = some (wi, out, pos) := by
  cases fuel <;> (rw [readLoopF]; rw [if_pos h])

theorem emitBytes_eq :
    ∀ (bs : List Nat) (m cap wi : Nat) (out : List Nat),
      emitBytes bs m cap wi out =
        (m - min bs.length (cap - wi), wi + min bs.length (cap - wi),
         out ++ bs.take (min bs.length (cap - wi))) := by
  intro bs
  induction bs with
  | nil => intro m cap wi out; simp [emitBytes]
  | cons b rest ih =>
    intro m cap wi out
    rw [emitBytes]
    by_cases hfull : cap ≤ wi
    · rw [if_pos hfull]
      have : min (b :: rest).length (cap - wi) = 0 := by
        simp
        omega
      rw [this]
      simp
    · rw [if_neg hfull, ih]
      have he : min (b :: rest).length (cap - wi) =
          min rest.length (cap - (wi + 1)) + 1 := by
        simp only [List.length_cons]
        omega
      rw [he]
      simp only [List.take_succ_cons, Prod.mk.injEq]
      refine ⟨by omega, by omega, ?_⟩
      simp

/-- Totality and output bound of the read loop on 4-byte-aligned state: it
returns `some` and emits at most the bytes between the original (pre-rewind)
logical position and the end of the buffer. -/
theorem readLoopF_some_le :
    ∀ (fuel : Nat) (d : List Nat) (cap pos m wi : Nat) (out : List Nat),
      d.length % 4 = 0 → pos % 4 = 0 → d.length ≤ pos + 4 * fuel →
      ∃ c o p2, readLoopF fuel d cap pos m wi out = some (c, o, p2) ∧
        c ≤ wi + (d.length - pos - m) := by
  intro fuel
  induction fuel with
  | zero =>
    intro d cap pos m wi out hd hp hfuel
    rw [readLoopF]
    have hstop : d.length ≤ pos ∨ cap ≤ wi := by omega
    rw [if_pos hstop]
    exact ⟨wi, out, pos, rfl, by omega⟩
  | succ f ih =>
    intro d cap pos m wi out hd hp hfuel
    rw [readLoopF]
    by_cases hstop : d.length ≤ pos ∨ cap ≤ wi
    · rw [if_pos hstop]
      exact ⟨wi, out, pos, rfl, by omega⟩
    · rw [if_neg hstop]
      push_neg at hstop
      have h4 : pos + 4 ≤ d.length := by omega
      rw [if_neg (by omega)]
      have hwlen : (((d.drop pos).take 4).reverse).length = 4 := by
        simp
        omega
      dsimp only
      rw [emitBytes_eq]
      have hdroplen : ((((d.drop pos).take 4).reverse).drop m).length = 4 - m := by
        rw [List.length_drop, hwlen]
      rw [hdroplen]
      obtain ⟨c, o, p2, heq, hle⟩ := ih d cap (pos + 4)
        (m - min (4 - m) (cap - wi)) (wi + min (4 - m) (cap - wi))
        (out ++ ((((d).drop pos).take 4).reverse.drop m).take (min (4 - m) (cap - wi)))
        hd (by omega) (by omega)
      refine ⟨c, o, p2, ?_, by omega⟩
      rw [← heq]

/-- Exact behaviour of the read loop from an aligned position with no
residual misalignment, when the capacity matches the bytes remaining: it
reads to the end, emitting every 4-byte word reversed. -/
theorem readLoopF_exact :
    ∀ (fuel : Nat) (d : List Nat) (pos wi : Nat) (out : List Nat) (cap : Nat),
      d.length % 4 = 0 → pos % 4 = 0 → pos ≤ d.length →
      d.length ≤ pos + 4 * fuel → cap = wi + (d.length - pos) →
      readLoopF fuel d cap pos 0 wi out =
        some (cap, out ++ flipWords4 (d.drop pos), d.length) := by
  intro fuel
  induction fuel with
  | zero =>
    intro d pos wi out cap hd hp hple hfuel hcap
    have hpos : pos = d.length := by omega
    rw [readLoopF, if_pos (Or.inl (by omega))]
    subst hpos
    rw [List.drop_length]
    simp [flipWords4, hcap]
  | succ f ih =>
    intro d pos wi out cap hd hp hple hfuel hcap
    by_cases hend : d.length ≤ pos
    · have hpos : pos = d.length := by omega
      rw [readLoopF, if_pos (Or.inl hend)]
      subst hpos
      rw [List.drop_length]
      simp [flipWords4, hcap]
    · push_neg at hend
      have h4 : pos + 4 ≤ d.length := by omega
      rw [readLoopF, if_neg (by omega), if_neg (by omega)]
      have hwlen : (((d.drop pos).take 4).reverse).length = 4 := by
        simp
        omega
      dsimp only
      rw [List.drop_zero, emitBytes_eq]
      have hmin : min (((d.drop pos).take 4).reverse).length (cap - wi) = 4 := by
        rw [hwlen]
        omega
      rw [hmin]
      have htake : (((d.drop pos).take 4).reverse).take 4 =
          ((d.drop pos).take 4).reverse := by
        rw [List.take_of_length_le (by rw [hwlen])]
      rw [htake]
      have hrec := ih d (pos + 4) (wi + 4) (out ++ ((d.drop pos).take 4).reverse)
        cap hd (by omega) (by omega) (by omega) (by omega)
      obtain ⟨a, b, c, e, hw⟩ := list_len4 ((d.drop pos).take 4) (by simp; omega)
      have hdecomp : d.drop pos = a :: b :: c :: e :: d.drop (pos + 4) := by
        conv_lhs => rw [← List.take_append_drop 4 (d.drop pos)]
        rw [hw, List.drop_drop]
        rfl
      have hflip : flipWords4 (d.drop pos) =
          ((d.drop pos).take 4).reverse ++ flipWords4 (d.drop (pos + 4)) := by
        rw [hw, hdecomp]
        rfl
      dsimp only
      rw [Nat.zero_sub, hflip, ← List.append_assoc]
      exact hrec

/-- `read` unfolds to the read loop on the rewound, word-aligned position. -/
theorem read_eq (s : ReversedWords) (cap : Nat) :
    ReversedWords.read s cap =
      match readLoopF s.data.length s.data cap (s.pos - s.pos % s.word_size)
          (s.pos % s.word_size) 0 [] with
      | none => none
      | some (c, out, p) => some (c, out, { s with pos := p }) := by
  have hm : s.pos % s.word_size ≤ s.pos := Nat.mod_le _ _
  unfold ReversedWords.read
  dsimp only
  have hstart : (if 0 < s.pos % s.word_size then
      seekCurrent s.pos (-((s.pos % s.word_size : Nat) : Int)) else some s.pos) =
      some (s.pos - s.pos % s.word_size) := by
    split
    · unfold seekCurrent
      rw [if_neg (by omega)]
      congr 1
      omega
    · congr 1
      omega
  rw [hstart]

/-! ### The word-flip view of buffers -/

theorem flipWords4_length : ∀ (d : List Nat), (flipWords4 d).length = d.length
  | [] => rfl
  | [_] => rfl
  | [_, _] => rfl
  | [_, _, _] => rfl
  | a :: b :: c :: e :: rest => by
    simp only [flipWords4, List.length_cons, flipWords4_length rest]

theorem flipWords4_getElem? : ∀ (d : List Nat), d.length % 4 = 0 →
    ∀ q : Nat, (flipWords4 d)[q]? = d[flipIdx 4 q]?
  | [], _, q => by simp [flipWords4]
  | [a], h, q => by simp at h
  | [a, b], h, q => by simp at h
  | [a, b, c], h, q => by simp at h
  | a :: b :: c :: e :: rest, h, q => by
    have hr : rest.length % 4 = 0 := by
      simp only [List.length_cons] at h
      omega
    match q with
    | 0 => simp [flipWords4, flipIdx]
    | 1 => simp [flipWords4, flipIdx]
    | 2 => simp [flipWords4, flipIdx]
    | 3 => simp [flipWords4, flipIdx]
    | (q + 4) =>
      have ih := flipWords4_getElem? rest hr q
      have hfi : flipIdx 4 (q + 4) = flipIdx 4 q + 1 + 1 + 1 + 1 := by
        rw [Nat.add_comm q 4, flipIdx_add_multiple q (by omega) ⟨1, rfl⟩]
        omega
      have hq4 : q + 4 = q + 1 + 1 + 1 + 1 := by omega
      rw [hfi, hq4]
      simp only [flipWords4, List.getElem?_cons_succ]
      exact ih

theorem flipWords4_invol (d : List Nat) (h : d.length % 4 = 0) :
    flipWords4 (flipWords4 d) = d := by
  apply List.ext_getElem?
  intro q
  rw [flipWords4_getElem? _ (by rw [flipWords4_length]; exact h) q,
    flipWords4_getElem? _ h _, flipIdx_invol 4 q (by omega)]

/-! ### The plain byte store (spec-side reference semantics) -/

theorem plainStore_length : ∀ (bs d : List Nat) (p : Nat),
    (plainStore d p bs).length = d.length
  | [], _, _ => rfl
  | b :: rest, d, p => by
    rw [plainStore, plainStore_length rest, List.length_set]

theorem plainStore_getElem?_out : ∀ (bs d : List Nat) (p q : Nat),
    (q < p ∨ p + bs.length ≤ q) → (plainStore d p bs)[q]? = d[q]? := by
  intro bs
  induction bs with
  | nil => intro d p q _; rfl
  | cons b rest ih =>
    intro d p q hq
    rw [plainStore, ih _ _ _ (by simp only [List.length_cons] at hq; omega)]
    exact List.getElem?_set_ne (by simp only [List.length_cons] at hq; omega)

theorem plainStore_getElem?_in : ∀ (bs d : List Nat) (p i : Nat),
    i < bs.length →
    (plainStore d p bs)[p + i]? = if p + i < d.length then bs[i]? else none := by
  intro bs
  induction bs with
  | nil => intro d p i hi; cases hi
  | cons b rest ih =>
    intro d p i hi
    match i with
    | 0 =>
      rw [plainStore, plainStore_getElem?_out rest _ _ _ (Or.inl (by omega))]
      simp only [Nat.add_zero, List.getElem?_cons_zero]
      by_cases hp : p < d.length
      · rw [if_pos hp]
        exact List.getElem?_set_self (by simpa using hp)
      · rw [if_neg hp, List.set_eq_of_length_le (by omega)]
        exact List.getElem?_eq_none (by omega)
    | (i + 1) =>
      have hre : p + (i + 1) = (p + 1) + i := by omega
      rw [plainStore, hre, ih _ _ _ (by simp only [List.length_cons] at hi; omega)]
      rw [List.length_set]
      have : (p + 1) + i = p + (i + 1) := by omega
      rw [this]
      simp only [List.getElem?_cons_succ]

/-! ### Claim theorems -/

/-- C5: seeking to offset 2 on an 8-byte all-zero buffer (word size 4) and
writing `[1,2,3,4]` returns a count of 4 and leaves the physical buffer
equal to `[2,1,0,0,0,0,4,3]` (the cursor ends at 8). -/
theorem claim5_write_unaligned :
    ReversedWords.write
      (ReversedWords.seekStart (ReversedWords.new (List.replicate 8 0)) 2)
      [1, 2, 3, 4] = some (4, ⟨[2, 1, 0, 0, 0, 0, 4, 3], 8, 4⟩) := by
  decide

/-- C9: a write with an empty input returns `Ok(0)` and leaves the buffer
unchanged, but still rewinds the cursor to the start of the containing
word, `pos - pos % word_size`; a zero-byte write can observably move the
cursor. -/
theorem claim9_empty_write (s : ReversedWords) (hw : 0 < s.word_size) :
    ReversedWords.write s [] =
      some (0, ⟨s.data, s.pos - s.pos % s.word_size, s.word_size⟩) := by
  rw [write_spec s [] hw]
  rfl

/-- Witness for C9 at a concrete misaligned cursor: position 3 with word
size 4 rewinds to 0 on an empty write. -/
theorem claim9_witness :
    ReversedWords.write ⟨[7, 7, 7, 7], 3, 4⟩ [] =
      some (0, ⟨[7, 7, 7, 7], 0, 4⟩) :=
  claim9_empty_write ⟨[7, 7, 7, 7], 3, 4⟩ (by decide)

/-- C10: a read that returns `Ok` leaves the backing buffer byte-for-byte
unchanged; it only advances the cursor and produces output bytes. -/
theorem claim10_read_preserves_buffer (s : ReversedWords) (cap c : Nat)
    (out : List Nat) (t : ReversedWords)
    (h : ReversedWords.read s cap = some (c, out, t)) :
    t.data = s.data := by
  rw [read_eq] at h
  cases hr : readLoopF s.data.length s.data cap (s.pos - s.pos % s.word_size)
      (s.pos % s.word_size) 0 [] with
  | none =>
    rw [hr] at h
    exact Option.noConfusion h
  | some r =>
    obtain ⟨c2, out2, p2⟩ := r
    rw [hr] at h
    have h2 : some (c2, out2, { s with pos := p2 }) = some (c, out, t) := h
    simp only [Option.some.injEq, Prod.mk.injEq] at h2
    rw [← h2.2.2]

/-- Witness for C10: a concrete successful read of a full 4-byte word. -/
theorem claim10_witness :
    (⟨[0, 1, 2, 3], 4, 4⟩ : ReversedWords).data =
      (ReversedWords.new [0, 1, 2, 3]).data :=
  claim10_read_preserves_buffer (ReversedWords.new [0, 1, 2, 3]) 4 4
    [3, 2, 1, 0] ⟨[0, 1, 2, 3], 4, 4⟩ (by decide)

theorem writeLoop_pos_le (start : Nat) :
    ∀ (ws : List (Nat × Nat)) (d : List Nat) (pos acc : Nat),
      pos ≤ d.length → pos ≤ (writeLoop start ws d pos acc).2.1 := by
  intro ws
  induction ws with
  | nil => intro d pos acc _; exact Nat.le_refl pos
  | cons hd tl ih =>
    intro d pos acc hple
    obtain ⟨t, b⟩ := hd
    rw [writeLoop]
    by_cases hlen : min (if pos < t + start then t + start else pos) d.length <
        d.length
    · rw [if_pos hlen]
      refine Nat.le_trans ?_ (ih _ _ _ (by rw [List.length_set]; omega))
      have : pos ≤ (if pos < t + start then t + start else pos) := by
        split <;> omega
      omega
    · rw [if_neg hlen]
      refine Nat.le_trans ?_ (ih _ _ _ (by omega))
      omega

/-- C6 counterexample to "the write loop only ever moves the cursor
forward": a write call starting with the cursor past the end of the buffer
(position 12 on an 8-byte buffer) seeks forward to the out-of-range target,
but the underlying cursor write clamps the stored position back to the
buffer length, leaving the cursor at 8 — strictly before the 12 it started
at. -/
theorem claim6_counterexample :
    (ReversedWords.write ⟨List.replicate 8 0, 12, 4⟩ [1]).map
      (fun r => decide (r.2.pos < 12)) = some true := by
  decide

/-- C6, amended: the per-call target-offset map is injective (no two input
bytes of one call share a physical offset), and the write loop never moves
the cursor backward from any state whose cursor is at or before the end of
the buffer (the loop keeps the cursor within the buffer, so this covers
every intermediate state of such a call); writes starting past the end are
clamped backward to the buffer length by the underlying cursor. -/
theorem claim6_injective_and_forward :
    (∀ w m i j : Nat, 0 < w → targetIdx w m i = targetIdx w m j → i = j) ∧
    (∀ (start : Nat) (ws : List (Nat × Nat)) (d : List Nat) (pos acc : Nat),
      pos ≤ d.length → pos ≤ (writeLoop start ws d pos acc).2.1) :=
  ⟨fun _ _ _ _ hw h => targetIdx_inj hw h, writeLoop_pos_le⟩

/-- Witness for C6 at concrete inputs. -/
theorem claim6_witness :
    (2 : Nat) = 2 ∧ (0 : Nat) ≤ (writeLoop 0 [(0, 5)] [0, 0] 0 0).2.1 :=
  ⟨claim6_injective_and_forward.1 4 1 2 2 (by decide) rfl,
   claim6_injective_and_forward.2 0 [(0, 5)] [0, 0] 0 0 (by decide)⟩

/-- C3: a write whose input exceeds the remaining buffer returns `Ok` with
a short count (never an error) and never grows the buffer (no memory
outside it is touched).  The buffer length is a whole number of words, the
spec's standing constraint on valid streams. -/
theorem claim3_boundary_write_short (s : ReversedWords) (buf : List Nat)
    (hw : 0 < s.word_size) (hL : s.data.length % s.word_size = 0)
    (hover : s.data.length - s.pos < buf.length) :
    ∃ c s', ReversedWords.write s buf = some (c, s') ∧ c < buf.length ∧
      s'.data.length = s.data.length := by
  have h := write_spec s buf hw
  exact ⟨_, _, h, write_count_short hw h hL hover, write_data_length hw h⟩

/-- Witness for C3: writing 3 bytes with 2 bytes remaining. -/
theorem claim3_witness :
    ∃ c s', ReversedWords.write ⟨[0, 0, 0, 0], 2, 4⟩ [1, 2, 3] =
      some (c, s') ∧ c < 3 ∧ s'.data.length = 4 :=
  claim3_boundary_write_short ⟨[0, 0, 0, 0], 2, 4⟩ [1, 2, 3]
    (by decide) (by decide) (by decide)

/-- C4: with word size 4 and a buffer whose length is a multiple of 4, a
read from an in-bounds cursor returns at most the bytes remaining, and any
read with the cursor at or past the end returns `Ok(0)`; in both cases the
result is `Ok`, never an error. -/
theorem claim4_read_bounds (s : ReversedWords) (cap : Nat)
    (hw : s.word_size = 4) (hL : s.data.length % 4 = 0) :
    (s.pos ≤ s.data.length →
      ∃ c out t, ReversedWords.read s cap = some (c, out, t) ∧
        c ≤ s.data.length - s.pos) ∧
    (s.data.length ≤ s.pos →
      ∃ t, ReversedWords.read s cap = some (0, [], t)) := by
  constructor
  · intro _
    rw [read_eq, hw]
    obtain ⟨c, o, p2, heq, hle⟩ := readLoopF_some_le s.data.length s.data cap
      (s.pos - s.pos % 4) (s.pos % 4) 0 [] hL (by omega) (by omega)
    rw [heq]
    exact ⟨c, o, ⟨s.data, p2, 4⟩, rfl, by omega⟩
  · intro hge
    rw [read_eq, hw]
    rw [readLoopF_stop _ _ _ _ _ _ _ (Or.inl (by omega))]
    exact ⟨_, rfl⟩

/-- Witness for C4: both parts at concrete states. -/
theorem claim4_witness :
    (∃ c out t, ReversedWords.read (ReversedWords.new [0, 1, 2, 3]) 9 =
      some (c, out, t) ∧ c ≤ 4 - 0) ∧
    (∃ t, ReversedWords.read ⟨[0, 1, 2, 3], 7, 4⟩ 3 = some (0, [], t)) :=
  ⟨(claim4_read_bounds (ReversedWords.new [0, 1, 2, 3]) 9 rfl (by decide)).1
      (by decide),
   (claim4_read_bounds ⟨[0, 1, 2, 3], 7, 4⟩ 3 rfl (by decide)).2 (by decide)⟩

/-- Reading a whole aligned buffer from position 0 produces the word-flipped
buffer and parks the cursor at the end. -/
theorem read_from_zero (s : ReversedWords) (cap : Nat) (hw : s.word_size = 4)
    (hpos : s.pos = 0) (hL : s.data.length % 4 = 0)
    (hcap : cap = s.data.length) :
    ReversedWords.read s cap =
      some (cap, flipWords4 s.data, ⟨s.data, s.data.length, s.word_size⟩) := by
  rw [read_eq, hw, hpos]
  simp only [Nat.zero_mod, Nat.sub_zero]
  rw [readLoopF_exact s.data.length s.data 0 0 [] cap hL (by omega) (by omega)
    (by omega) (by omega)]
  rfl

/-- C1: for any buffer whose length is a multiple of 4 and any byte
sequence of that length, writing from offset 0 (count is the full length)
then seeking to 0 and reading that length back reproduces the sequence. -/
theorem claim1_roundtrip (data buf : List Nat) (hL : data.length % 4 = 0)
    (hlen : buf.length = data.length) :
    ∃ s1 t,
      ReversedWords.write (ReversedWords.new data) buf = some (buf.length, s1) ∧
      ReversedWords.read (ReversedWords.seekStart s1 0) buf.length =
        some (buf.length, buf, t) := by
  have hw : 0 < (ReversedWords.new data).word_size := by
    show 0 < 4
    omega
  have hspec := write_spec (ReversedWords.new data) buf hw
  have hc := write_count_full hw hspec (hL : data.length % 4 = 0)
    (show 0 + buf.length ≤ data.length by omega)
  rw [hc] at hspec
  obtain ⟨s1, hspec⟩ : ∃ s1, ReversedWords.write (ReversedWords.new data) buf =
      some (buf.length, s1) := ⟨_, hspec⟩
  have hlen1 : s1.data.length = data.length := write_data_length hw hspec
  have hws1 : s1.word_size = 4 := (write_dest hw hspec).2.2.2
  have hhit : ∀ q, q < buf.length → s1.data[flipIdx 4 q]? = buf[q]? := by
    intro q hq
    have h := write_hit hw hspec hq
    rw [show (ReversedWords.new data).word_size = 4 from rfl,
      show (ReversedWords.new data).pos = 0 from rfl, Nat.zero_add,
      show (ReversedWords.new data).data = data from rfl] at h
    have hcond : flipIdx 4 q < data.length :=
      (flipIdx_lt_iff (by omega) hL).mpr (by omega)
    rw [h, if_pos hcond]
  have hflip : flipWords4 s1.data = buf := by
    apply List.ext_getElem?
    intro q
    rw [flipWords4_getElem? s1.data (by rw [hlen1]; exact hL) q]
    by_cases hq : q < buf.length
    · exact hhit q hq
    · rw [List.getElem?_eq_none (l := buf) (by omega)]
      apply List.getElem?_eq_none
      rw [hlen1]
      have := flipIdx_lt_iff (w := 4) (L := data.length) (q := q) (by omega) hL
      omega
  refine ⟨s1, ⟨s1.data, s1.data.length, s1.word_size⟩, hspec, ?_⟩
  have hr := read_from_zero (ReversedWords.seekStart s1 0) buf.length hws1 rfl
    (show s1.data.length % 4 = 0 by omega) (show buf.length = s1.data.length by omega)
  rw [hr, show (ReversedWords.seekStart s1 0).data = s1.data from rfl, hflip]
  rfl

/-- Witness for C1: a concrete 4-byte round trip over an arbitrary initial
buffer. -/
theorem claim1_witness :
    ∃ s1 t,
      ReversedWords.write (ReversedWords.new [5, 6, 7, 8]) [1, 2, 3, 4] =
        some (4, s1) ∧
      ReversedWords.read (ReversedWords.seekStart s1 0) 4 =
        some (4, [1, 2, 3, 4], t) :=
  claim1_roundtrip [5, 6, 7, 8] [1, 2, 3, 4] (by decide) (by decide)

theorem plainRun_length : ∀ (ops : List (Nat × List Nat)) (d : List Nat),
    (plainRun d ops).length = d.length
  | [], _ => rfl
  | (a, bs) :: rest, d => by
    rw [plainRun, plainRun_length rest, plainStore_length]

/-- One `(seek, write)` operation preserves the simulation between the
physical buffer and the plain (non-reversing) byte store: if the buffer is
the word-flip of the plain store, it remains so after the write. -/
theorem step_invariant (s : ReversedWords) (plain : List Nat) (a : Nat)
    (bs : List Nat) (hw : s.word_size = 4) (hL : plain.length % 4 = 0)
    (hd : s.data = flipWords4 plain) :
    ∃ c s', ReversedWords.write (ReversedWords.seekStart s a) bs = some (c, s') ∧
      s'.word_size = 4 ∧ s'.data = flipWords4 (plainStore plain a bs) := by
  have hw0 : 0 < (ReversedWords.seekStart s a).word_size := by
    rw [show (ReversedWords.seekStart s a).word_size = s.word_size from rfl, hw]
    omega
  obtain ⟨c, s', hspec⟩ : ∃ c s',
      ReversedWords.write (ReversedWords.seekStart s a) bs = some (c, s') :=
    ⟨_, _, write_spec _ bs hw0⟩
  have hlen2 : s.data.length = plain.length := by rw [hd, flipWords4_length]
  refine ⟨c, s', hspec, ?_, ?_⟩
  · exact ((write_dest hw0 hspec).2.2.2 :
      s'.word_size = (ReversedWords.seekStart s a).word_size).trans hw
  · apply List.ext_getElem?
    intro x
    rw [flipWords4_getElem? _ (by rw [plainStore_length]; exact hL) x]
    by_cases hcase : ∃ i, i < bs.length ∧ a + i = flipIdx 4 x
    · obtain ⟨i, hi, hai⟩ := hcase
      have hx : flipIdx 4 (a + i) = x := by
        rw [hai, flipIdx_invol 4 x (by omega)]
      have h := write_hit hw0 hspec hi
      rw [show (ReversedWords.seekStart s a).word_size = s.word_size from rfl, hw,
        show (ReversedWords.seekStart s a).pos = a from rfl,
        show (ReversedWords.seekStart s a).data = s.data from rfl, hx] at h
      rw [h, ← hai, plainStore_getElem?_in bs plain a i hi]
      have hiff : (x < s.data.length) ↔ (a + i < plain.length) := by
        rw [hlen2, hai]
        exact (flipIdx_lt_iff (by omega) hL).symm
      by_cases hxL : x < s.data.length
      · rw [if_pos hxL, if_pos (hiff.mp hxL)]
      · rw [if_neg hxL, if_neg (fun hcon => hxL (hiff.mpr hcon))]
    · push_neg at hcase
      have hmiss : ∀ i, i < bs.length →
          flipIdx (ReversedWords.seekStart s a).word_size
            ((ReversedWords.seekStart s a).pos + i) ≠ x := by
        intro i hi hcon
        rw [show (ReversedWords.seekStart s a).word_size = s.word_size from rfl, hw,
          show (ReversedWords.seekStart s a).pos = a from rfl] at hcon
        apply hcase i hi
        rw [← hcon, flipIdx_invol 4 (a + i) (by omega)]
      have h := write_miss hw0 hspec hmiss
      rw [show (ReversedWords.seekStart s a).data = s.data from rfl] at h
      rw [h, hd, flipWords4_getElem? plain hL x]
      rw [plainStore_getElem?_out bs plain a (flipIdx 4 x) ?_]
      by_contra hcon
      push_neg at hcon
      exact hcase (flipIdx 4 x - a) (by omega) (by omega)

/-- Any sequence of `(seek, write)` operations preserves the simulation
with the plain byte store. -/
theorem runOps_invariant :
    ∀ (ops : List (Nat × List Nat)) (s : ReversedWords) (plain : List Nat),
      s.word_size = 4 → plain.length % 4 = 0 → s.data = flipWords4 plain →
      ∃ s', runOps s ops = some s' ∧ s'.word_size = 4 ∧
        s'.data = flipWords4 (plainRun plain ops) := by
  intro ops
  induction ops with
  | nil => intro s plain hw hL hd; exact ⟨s, rfl, hw, hd⟩
  | cons op rest ih =>
    intro s plain hw hL hd
    obtain ⟨a, bs⟩ := op
    obtain ⟨c, s1, hstep, hw1, hd1⟩ := step_invariant s plain a bs hw hL hd
    obtain ⟨s2, hrun, hw2, hd2⟩ := ih s1 (plainStore plain a bs) hw1
      (by rw [plainStore_length]; exact hL) hd1
    refine ⟨s2, ?_, hw2, ?_⟩
    · rw [runOps, hstep]
      exact hrun
    · rw [plainRun]
      exact hd2

/-- C2: after any sequence of `(seek to offset, write block)` operations on
a zero-initialized buffer whose length is a multiple of 4 — blocks may be
unaligned, adjacent, overlapping, even out of range — seeking to 0 and
reading the whole buffer yields exactly what a plain, non-reversing byte
store would contain after the same seeks and writes: the word reversal is
transparent end-to-end. -/
theorem claim2_interleaved_transparent (L : Nat) (hL : L % 4 = 0)
    (ops : List (Nat × List Nat)) :
    ∃ s', runOps (ReversedWords.new (List.replicate L 0)) ops = some s' ∧
      ∃ t, ReversedWords.read (ReversedWords.seekStart s' 0) L =
        some (L, plainRun (List.replicate L 0) ops, t) := by
  have hreplen : (List.replicate L (0 : Nat)).length = L := List.length_replicate L 0
  have hrep : (List.replicate L (0 : Nat)) = flipWords4 (List.replicate L 0) := by
    apply List.ext_getElem?
    intro x
    rw [flipWords4_getElem? _ (by rw [hreplen]; exact hL)]
    rw [List.getElem?_replicate, List.getElem?_replicate]
    have := flipIdx_lt_iff (w := 4) (L := L) (q := x) (by omega) hL
    by_cases hx : x < L
    · rw [if_pos hx, if_pos (by omega)]
    · rw [if_neg hx, if_neg (by omega)]
  obtain ⟨s', hrun, hw', hd'⟩ := runOps_invariant ops
    (ReversedWords.new (List.replicate L 0)) (List.replicate L 0) rfl
    (by rw [hreplen]; exact hL) hrep
  have hPlen : (plainRun (List.replicate L (0 : Nat)) ops).length = L := by
    rw [plainRun_length, hreplen]
  have hslen : s'.data.length = L := by
    rw [hd', flipWords4_length, hPlen]
  have hflip2 : flipWords4 s'.data = plainRun (List.replicate L 0) ops := by
    rw [hd', flipWords4_invol _ (by rw [hPlen]; exact hL)]
  refine ⟨s', hrun, ⟨s'.data, s'.data.length, s'.word_size⟩, ?_⟩
  have hr := read_from_zero (ReversedWords.seekStart s' 0) L
    (hw' : (ReversedWords.seekStart s' 0).word_size = 4) rfl
    (show s'.data.length % 4 = 0 by omega) (show L = s'.data.length by omega)
  rw [hr, show (ReversedWords.seekStart s' 0).data = s'.data from rfl, hflip2]
  rfl

/-- Witness for C2: two unaligned adjacent writes on an 8-byte buffer. -/
theorem claim2_witness :
    ∃ s', runOps (ReversedWords.new (List.replicate 8 0)) [(2, [9, 9, 9]), (5, [1])] =
      some s' ∧
      ∃ t, ReversedWords.read (ReversedWords.seekStart s' 0) 8 =
        some (8, plainRun (List.replicate 8 0) [(2, [9, 9, 9]), (5, [1])], t) :=
  claim2_interleaved_transparent 8 (by decide) [(2, [9, 9, 9]), (5, [1])]

/-- C7 evaluation: the read path hardcodes 4-byte (u32) words regardless of
the configured word size.  With `new_with_word_size` at word size 2 on the
physical buffer `[0,1,2,3]`, reading the whole buffer from offset 0 yields
`[3,2,1,0]` (4-byte reversal), not the `[1,0,3,2]` that the claimed
per-2-byte-word reversal rule prescribes. -/
theorem claim7_code_eval :
    ReversedWords.read (ReversedWords.new_with_word_size [0, 1, 2, 3] 2) 4 =
      some (4, [3, 2, 1, 0], ⟨[0, 1, 2, 3], 4, 2⟩) ∧
    ([3, 2, 1, 0] : List Nat) ≠ [1, 0, 3, 2] := by
  decide

theorem pairwise_le_getLast :
    ∀ (l : List (Nat × Nat)) (tb : Nat × Nat),
      List.Pairwise (fun a b : Nat × Nat => a.1 ≤ b.1) l →
      l.getLast? = some tb → ∀ p ∈ l, p.1 ≤ tb.1 := by
  intro l
  induction l with
  | nil => intro tb _ h; exact Option.noConfusion h
  | cons hd tl ih =>
    intro tb hpw hlast p hp
    cases tl with
    | nil =>
      have h2 : some hd = some tb := hlast
      have h3 : hd = tb := Option.some.inj h2
      rcases List.mem_cons.mp hp with rfl | hmem
      · rw [h3]
      · cases hmem
    | cons x xs =>
      have hlast2 : (x :: xs).getLast? = some tb := by
        rw [← List.getLast?_cons_cons]
        exact hlast
      have hhd := List.pairwise_cons.mp hpw
      rcases List.mem_cons.mp hp with rfl | hmem
      · have htbmem : tb ∈ x :: xs := by
          obtain ⟨hne2, heq⟩ :=
            List.mem_getLast?_eq_getLast (Option.mem_def.mpr hlast2)
          rw [heq]
          exact List.getLast_mem hne2
        exact hhd.1 tb htbmem
      · exact ih tb hhd.2 hlast2 p hmem

/-- C8 counterexample, two parts.  First, against "not at the logical
position 'start + bytes written'": a word-aligned whole-word write leaves
the cursor exactly at the logical position — writing 4 bytes at position 0
parks the cursor at `0 + 4`.  Second, against the main assertion when the
input does not fit: writing `[1,2,3,4]` at position 6 of an 8-byte buffer
stores bytes only at physical offsets 4 and 5 (see the returned buffer), so
"immediately after the last byte written" is 6, yet the clamped cursor
parks at 8. -/
theorem claim8_counterexample :
    ((ReversedWords.write (ReversedWords.new (List.replicate 8 0)) [1, 2, 3, 4]).map
      (fun r => (r.1, r.2.pos)) = some (4, 0 + 4)) ∧
    ((ReversedWords.write ⟨List.replicate 8 0, 6, 4⟩ [1, 2, 3, 4]).map
      (fun r => (r.1, r.2.data, r.2.pos)) =
        some (2, [0, 0, 0, 0, 2, 1, 0, 0], 8)) := by
  decide

/-- C8, amended: after a write with non-empty input whose bytes all fit in
the buffer, the cursor is left immediately after the highest-offset
physical byte written in the call; this physical position may coincide
with the logical position `start + bytes_written` (e.g. for aligned
whole-word writes), refuting the claim's "not at the logical position"
parenthetical, and when the input does not fit the cursor is instead
clamped to the buffer length (second counterexample part), so both the
parenthetical and the unrestricted main assertion fail as stated. -/
theorem claim8_cursor_after_last (s : ReversedWords) (buf : List Nat)
    (hw : 0 < s.word_size) (hL : s.data.length % s.word_size = 0)
    (hne : buf ≠ []) (hfit : s.pos + buf.length ≤ s.data.length) :
    ∃ s', ReversedWords.write s buf = some (buf.length, s') ∧
      ∃ i, i < buf.length ∧ s'.pos = flipIdx s.word_size (s.pos + i) + 1 ∧
        ∀ j, j < buf.length →
          flipIdx s.word_size (s.pos + j) ≤ flipIdx s.word_size (s.pos + i) := by
  have hspec := write_spec s buf hw
  have hc := write_count_full hw hspec hL hfit
  rw [hc] at hspec
  obtain ⟨s', hspec⟩ : ∃ s', ReversedWords.write s buf = some (buf.length, s') :=
    ⟨_, hspec⟩
  have hpos := (write_dest hw hspec).2.2.1
  cases hlast : (sortedWrites s.word_size (s.pos % s.word_size) buf).getLast? with
  | none =>
    exfalso
    have hlen0 := sortedWrites_length s.word_size (s.pos % s.word_size) buf
    have hbufpos : 0 < buf.length := List.length_pos.mpr hne
    rw [List.getLast?_eq_none_iff.mp hlast] at hlen0
    simp at hlen0
    omega
  | some tb =>
    rw [hlast] at hpos
    have hpos2 : s'.pos =
        if tb.1 + (s.pos - s.pos % s.word_size) < s.data.length
        then tb.1 + (s.pos - s.pos % s.word_size) + 1
        else s.data.length := hpos
    have htbmem : tb ∈ sortedWrites s.word_size (s.pos % s.word_size) buf := by
      obtain ⟨hne2, heq⟩ := List.mem_getLast?_eq_getLast (Option.mem_def.mpr hlast)
      rw [heq]
      exact List.getLast_mem hne2
    obtain ⟨i, hi?, hp1⟩ := mem_sortedWrites.mp htbmem
    have hilt : i < buf.length := (List.getElem?_eq_some.mp hi?).1
    have hstart : tb.1 + (s.pos - s.pos % s.word_size) =
        flipIdx s.word_size (s.pos + i) := by
      rw [hp1]
      exact target_add_start s.pos i s.word_size hw
    have hin : flipIdx s.word_size (s.pos + i) < s.data.length :=
      (flipIdx_lt_iff hw hL).mpr (by omega)
    rw [hstart, if_pos hin] at hpos2
    refine ⟨s', hspec, i, hilt, hpos2, ?_⟩
    intro j hj
    have hjmem : (targetIdx s.word_size (s.pos % s.word_size) j, buf[j]) ∈
        sortedWrites s.word_size (s.pos % s.word_size) buf :=
      mem_sortedWrites.mpr ⟨j, List.getElem?_eq_getElem hj, rfl⟩
    have hle := pairwise_le_getLast _ tb
      (List.sorted_insertionSort _ _) hlast _ hjmem
    rw [← target_add_start s.pos j s.word_size hw, ← hstart]
    omega

/-- Witness for the amended C8: an unaligned two-byte write at offset 6. -/
theorem claim8_witness :
    ∃ s', ReversedWords.write
        (ReversedWords.seekStart (ReversedWords.new (List.replicate 8 0)) 6)
        [16, 32] = some (2, s') ∧
      ∃ i, i < 2 ∧ s'.pos = flipIdx 4 (6 + i) + 1 ∧
        ∀ j, j < 2 → flipIdx 4 (6 + j) ≤ flipIdx 4 (6 + i) :=
  claim8_cursor_after_last
    (ReversedWords.seekStart (ReversedWords.new (List.replicate 8 0)) 6)
    [16, 32] (by decide) (by decide) (by decide) (by decide)

/-! ### The repository's unit tests, replayed against the embedding -/

/-- Test `read_simple_sequential`. -/
theorem test_read_simple_sequential :
    ReversedWords.read (ReversedWords.new [0, 1, 2, 3, 4, 5, 6, 7]) 8 =
      some (8, [3, 2, 1, 0, 7, 6, 5, 4], ⟨[0, 1, 2, 3, 4, 5, 6, 7], 8, 4⟩) := by
  decide

/-- Test `read_seek_unaligned`. -/
theorem test_read_seek_unaligned :
    ReversedWords.read
      (ReversedWords.seekStart (ReversedWords.new [0, 1, 2, 3, 4, 5, 6, 7]) 2) 3 =
      some (3, [1, 0, 7], ⟨[0, 1, 2, 3, 4, 5, 6, 7], 8, 4⟩) := by
  decide

/-- Test `write_simple_sequential`. -/
theorem test_write_simple_sequential :
    ReversedWords.write (ReversedWords.new [0, 0, 0, 0, 0, 0, 0, 0])
      [0, 1, 2, 3, 4, 5, 6, 7] =
      some (8, ⟨[3, 2, 1, 0, 7, 6, 5, 4], 8, 4⟩) := by
  decide

/-- Test `write_seek_unaligned_2`. -/
theorem test_write_seek_unaligned_2 :
    ReversedWords.write
      (ReversedWords.seekStart (ReversedWords.new [0, 0, 0, 0, 0, 0, 0, 0]) 6)
      [16, 32] = some (2, ⟨[0, 0, 0, 0, 32, 16, 0, 0], 6, 4⟩) := by
  decide
